import Mathlib

/-!
Verification of the evaluation/metrics engine of `simulation/metrics.py`
(confusion counts, FROC/AFROC curve builders, EMD aggregation).

Numpy arrays are embedded as Lean lists: a 2-D matrix is a `List (List ℚ)`,
its flattening (`np.ravel`) is `List.flatten`.  Floating point values are
embedded as rationals.  A Python function that can raise is embedded as a
function into `Option`/`Except`.
-/

namespace Metrics

/-- Counts the pairs `(a, b)` of a list satisfying the (decidable) relation
`f a b`.  This embeds `counts[np.where(unique == v)][0]` applied to
`np.unique(x, return_counts=True)`: the count of positions of the element-wise
array `x` that are equal to `v` (with the `except IndexError: count = 0`
convention of the source folded in, since the count of an absent value is 0). -/
def countPairs (f : ℚ → ℚ → Prop) [∀ a b, Decidable (f a b)] : List (ℚ × ℚ) → ℕ
  | [] => 0
  | q :: qs => (if f q.1 q.2 then 1 else 0) + countPairs f qs

/-- Count of the occurrences of the value `v` in a list
(`np.sum(x == v)` / `len(np.where(x == v)[0])`). -/
def countVal {α : Type} [DecidableEq α] (v : α) : List α → ℕ
  | [] => 0
  | x :: xs => (if x = v then 1 else 0) + countVal v xs

/-- Embedding of `get_true_false(true_signal, pred_signal)` from
`simulation/metrics.py`.  The source builds the element-wise arrays
`true_signal - pred_signal` and `true_signal + pred_signal` and reads off the
counts of the codes `-1`, `1`, `2`, `0`; a missing code yields count 0 via the
`except IndexError` branches.  The final `assert` comparing `len(true_signal)`
with the sum of the four counts is embedded as the guard below (`none` models
the `AssertionError`).  The element-wise arithmetic requires the two inputs to
have the same length (numpy raises on mismatched shapes), hence the first
guard. -/
def get_true_false (true_signal pred_signal : List ℚ) : Option (ℕ × ℕ × ℕ × ℕ) :=
  if true_signal.length ≠ pred_signal.length then none else
  let pairs := true_signal.zip pred_signal
  let false_positive := countPairs (fun t p => t - p = -1) pairs
  let true_negative := countPairs (fun t p => t - p = 1) pairs
  let true_positive := countPairs (fun t p => t + p = 2) pairs
  let false_negative := countPairs (fun t p => t + p = 0) pairs
  if true_signal.length = true_positive + true_negative + false_positive + false_negative
  then some (true_positive, true_negative, false_positive, false_negative)
  else none

/-- A list is a binary 0/1 signal when each entry is 0 or 1. -/
def IsBinary (l : List ℚ) : Prop := ∀ x ∈ l, x = 0 ∨ x = 1

theorem countPairs_le_length (f : ℚ → ℚ → Prop) [∀ a b, Decidable (f a b)]
    (l : List (ℚ × ℚ)) : countPairs f l ≤ l.length := by
  induction l with
  | nil => simp [countPairs]
  | cons q qs ih =>
    simp only [countPairs, List.length_cons]
    split <;> omega

theorem countPairs_congr {f g : ℚ → ℚ → Prop} [∀ a b, Decidable (f a b)]
    [∀ a b, Decidable (g a b)] {l : List (ℚ × ℚ)}
    (h : ∀ q ∈ l, f q.1 q.2 ↔ g q.1 q.2) : countPairs f l = countPairs g l := by
  induction l with
  | nil => rfl
  | cons q qs ih =>
    simp only [countPairs]
    have hq := h q (by simp)
    have hrest : ∀ q ∈ qs, f q.1 q.2 ↔ g q.1 q.2 := fun q hmem => h q (by simp [hmem])
    rw [ih hrest]
    by_cases hf : f q.1 q.2
    · rw [if_pos hf, if_pos (hq.mp hf)]
    · rw [if_neg hf, if_neg (fun hg => hf (hq.mpr hg))]

theorem countPairs_map_swap (f : ℚ → ℚ → Prop) [∀ a b, Decidable (f a b)]
    (l : List (ℚ × ℚ)) :
    countPairs f (l.map Prod.swap) = countPairs (fun a b => f b a) l := by
  induction l with
  | nil => rfl
  | cons q qs ih => simp only [List.map_cons, countPairs, Prod.fst_swap, Prod.snd_swap, ih]

/-- For binary 0/1 pairs, each pair satisfies exactly one of the four codes, so
the four counts partition the list. -/
theorem countPairs_partition {l : List (ℚ × ℚ)}
    (h : ∀ q ∈ l, (q.1 = 0 ∨ q.1 = 1) ∧ (q.2 = 0 ∨ q.2 = 1)) :
    countPairs (fun t p => t + p = 2) l + countPairs (fun t p => t - p = 1) l +
      countPairs (fun t p => t - p = -1) l + countPairs (fun t p => t + p = 0) l
      = l.length := by
  induction l with
  | nil => rfl
  | cons q qs ih =>
    have hq := h q (by simp)
    have hrest : ∀ q ∈ qs, (q.1 = 0 ∨ q.1 = 1) ∧ (q.2 = 0 ∨ q.2 = 1) :=
      fun q hmem => h q (by simp [hmem])
    simp only [countPairs, List.length_cons]
    have := ih hrest
    rcases hq.1 with h1 | h1 <;> rcases hq.2 with h2 | h2 <;>
      rw [h1, h2] <;> norm_num <;> omega

/-- Evaluation of `get_true_false` on binary inputs: the assert never fires and
the four counts are the four pair counts. -/
theorem get_true_false_eval {t p : List ℚ} (hlen : t.length = p.length)
    (ht : IsBinary t) (hp : IsBinary p) :
    get_true_false t p = some
      (countPairs (fun a b => a + b = 2) (t.zip p),
       countPairs (fun a b => a - b = 1) (t.zip p),
       countPairs (fun a b => a - b = -1) (t.zip p),
       countPairs (fun a b => a + b = 0) (t.zip p)) := by
  have hzip : ∀ q ∈ t.zip p, (q.1 = 0 ∨ q.1 = 1) ∧ (q.2 = 0 ∨ q.2 = 1) := by
    intro q hq
    exact ⟨ht q.1 (List.of_mem_zip hq).1, hp q.2 (List.of_mem_zip hq).2⟩
  have hlenzip : (t.zip p).length = t.length := by
    rw [List.length_zip, hlen, Nat.min_self]
  have hsum := countPairs_partition hzip
  rw [hlenzip] at hsum
  unfold get_true_false
  rw [if_neg (by omega), if_pos (by omega)]

/-- The length of a successful `get_true_false` input equals the sum of the
four returned counts (the embedded assert). -/
theorem get_true_false_sum {t p : List ℚ} {tp tn fp fn : ℕ}
    (h : get_true_false t p = some (tp, tn, fp, fn)) :
    tp + tn + fp + fn = t.length := by
  simp only [get_true_false, ne_eq, ite_not] at h
  split at h
  · split at h
    · simp only [Option.some.injEq, Prod.mk.injEq] at h
      obtain ⟨h1, h2, h3, h4⟩ := h
      rename_i hguard _
      omega
    · exact absurd h (by simp)
  · exact absurd h (by simp)

/-- Sorted insertion skipping an already-present value; helper for the
embedding of `np.unique`. -/
def insertUnique {α : Type} [LinearOrder α] (x : α) : List α → List α
  | [] => [x]
  | y :: ys => if x = y then y :: ys else if x < y then x :: y :: ys else y :: insertUnique x ys

/-- Embedding of `np.unique(l)`: the distinct values of `l`, sorted
ascending. -/
def np_unique {α : Type} [LinearOrder α] : List α → List α
  | [] => []
  | x :: xs => insertUnique x (np_unique xs)

theorem mem_insertUnique {α : Type} [LinearOrder α] (x v : α) (l : List α) :
    v ∈ insertUnique x l ↔ v = x ∨ v ∈ l := by
  induction l with
  | nil => simp [insertUnique]
  | cons y ys ih =>
    simp only [insertUnique]
    split
    · rename_i hxy
      subst hxy
      simp only [List.mem_cons]
      tauto
    · split
      · simp only [List.mem_cons]
      · simp only [List.mem_cons, ih]
        tauto

theorem sorted_insertUnique {α : Type} [LinearOrder α] (x : α) {l : List α}
    (h : l.Sorted (· ≤ ·)) : (insertUnique x l).Sorted (· ≤ ·) := by
  induction l with
  | nil => simp [insertUnique]
  | cons y ys ih =>
    rw [List.sorted_cons] at h
    simp only [insertUnique]
    by_cases hxy : x = y
    · rw [if_pos hxy, List.sorted_cons]
      exact ⟨h.1, h.2⟩
    · rw [if_neg hxy]
      by_cases hlt : x < y
      · rw [if_pos hlt, List.sorted_cons]
        refine ⟨?_, by rw [List.sorted_cons]; exact ⟨h.1, h.2⟩⟩
        intro b hb
        rcases List.mem_cons.mp hb with hb | hb
        · exact hb ▸ hlt.le
        · exact hlt.le.trans (h.1 b hb)
      · rw [if_neg hlt, List.sorted_cons]
        have hyx : y ≤ x := le_of_not_lt hlt
        refine ⟨?_, ih h.2⟩
        intro b hb
        rcases (mem_insertUnique x b ys).mp hb with hb | hb
        · exact hb ▸ hyx
        · exact h.1 b hb

theorem nodup_insertUnique {α : Type} [LinearOrder α] (x : α) {l : List α}
    (hs : l.Sorted (· ≤ ·)) (h : l.Nodup) : (insertUnique x l).Nodup := by
  induction l with
  | nil => simp [insertUnique]
  | cons y ys ih =>
    rw [List.sorted_cons] at hs
    rw [List.nodup_cons] at h
    simp only [insertUnique]
    by_cases hxy : x = y
    · rw [if_pos hxy, List.nodup_cons]
      exact ⟨h.1, h.2⟩
    · rw [if_neg hxy]
      by_cases hlt : x < y
      · rw [if_pos hlt, List.nodup_cons, List.nodup_cons]
        refine ⟨?_, h.1, h.2⟩
        intro hx
        rcases List.mem_cons.mp hx with hx | hx
        · exact hxy hx
        · exact absurd (hs.1 x hx) (not_le.mpr hlt)
      · rw [if_neg hlt, List.nodup_cons]
        refine ⟨?_, ih hs.2 h.2⟩
        intro hy
        rcases (mem_insertUnique x y ys).mp hy with hy | hy
        · exact hxy hy.symm
        · exact h.1 hy

theorem sorted_np_unique {α : Type} [LinearOrder α] (l : List α) :
    (np_unique l).Sorted (· ≤ ·) := by
  induction l with
  | nil => simp [np_unique]
  | cons x xs ih => exact sorted_insertUnique x ih

theorem nodup_np_unique {α : Type} [LinearOrder α] (l : List α) :
    (np_unique l).Nodup := by
  induction l with
  | nil => simp [np_unique]
  | cons x xs ih => exact nodup_insertUnique x (sorted_np_unique xs) ih

theorem mem_np_unique {α : Type} [LinearOrder α] {l : List α} {v : α} :
    v ∈ np_unique l ↔ v ∈ l := by
  induction l with
  | nil => simp [np_unique]
  | cons x xs ih =>
    simp only [np_unique, mem_insertUnique, List.mem_cons, ih]

/-- On a list of 0s and 1s containing both values, `np.unique` returns
exactly `[0, 1]`. -/
theorem np_unique_binary {l : List ℚ} (h : IsBinary l)
    (h0 : (0 : ℚ) ∈ l) (h1 : (1 : ℚ) ∈ l) : np_unique l = [0, 1] := by
  have hperm : List.Perm (np_unique l) [0, 1] := by
    rw [List.perm_ext_iff_of_nodup (nodup_np_unique l) (by norm_num)]
    intro a
    rw [mem_np_unique]
    constructor
    · intro ha
      rcases h a ha with ha' | ha' <;> simp [ha']
    · intro ha
      rcases List.mem_cons.mp ha with ha' | ha'
      · exact ha' ▸ h0
      · rw [List.mem_singleton] at ha'
        exact ha' ▸ h1
  exact List.eq_of_perm_of_sorted hperm (sorted_np_unique l) (by norm_num)

/-- The second component of the first pair of `pairs` whose first component is
`v` (default 0 when absent).  This embeds the row selection
`signal[indicesList, :]` of `calc_froc`: `np.unique(y_score, return_index=True)`
returns for each distinct score the index of its first occurrence in the
flattened score array, and `signal` pairs each flattened score with the
flattened true label at the same position, so the selected row for a distinct
score `v` is `(v, flattened-y_true at the first occurrence of v)`. -/
def firstLabel (pairs : List (ℚ × ℚ)) (v : ℚ) : ℚ :=
  match pairs with
  | [] => 0
  | q :: qs => if q.1 = v then q.2 else firstLabel qs v

/-- The deduplicated `(score, label)` rows of `calc_froc`, in the sweep order:
`sorted_signal = signal[indicesList, :][::-1]`, i.e. one row per distinct
score, sorted by descending score. -/
def sortedSignal (y_true y_score : List (List ℚ)) : List (ℚ × ℚ) :=
  ((np_unique y_score.flatten).map
    (fun v => (v, firstLabel (y_score.flatten.zip y_true.flatten) v))).reverse

/-- The thresholded prediction `t_est = sorted_signal[:, 0] >= score` of
`calc_froc`, with booleans embedded as the rationals 1/0 (numpy arithmetic on
booleans treats them as 1/0). -/
def t_est (sig : List (ℚ × ℚ)) (score : ℚ) : List ℚ :=
  sig.map (fun q => if score ≤ q.1 then 1 else 0)

/-- The threshold sweep loop of `calc_froc`: for each row `(score, value)` of
`sorted_signal` (iterated over `iter`), compute
`get_true_false(sorted_signal[:, 1], t_est)` and keep `(tps, fps)` — the first
and third components.  A failing assert inside `get_true_false` aborts the
whole computation (`none`). -/
def sweep (sig : List (ℚ × ℚ)) : List (ℚ × ℚ) → Option (List (ℕ × ℕ))
  | [] => some []
  | sv :: rest =>
    match get_true_false (sig.map Prod.snd) (t_est sig sv.1), sweep sig rest with
    | some c, some cs => some ((c.1, c.2.2.1) :: cs)
    | _, _ => none

/-- The Python exceptions `calc_froc` can raise: `IndexError` from
`classes[1]`, the `ValueError` of the explicit binary-classification check,
a shape error from `np.c_[y_score, y_true]` on mismatched flattened lengths,
and the `AssertionError` of `get_true_false`. -/
inductive NpError
  | indexError
  | valueError
  | shapeError
  | assertError
deriving DecidableEq

/-- Embedding of `calc_froc(y_true, y_score)` from `simulation/metrics.py`.

Line by line against the source: `n_samples = y_true.shape[0]` is
`y_true.length`; `classes = np.unique(y_true)` (the distinct values of the
flattened matrix, ascending); `n_pos = np.sum(y_true == classes[1])`, where
`classes[1]` raises `IndexError` when there are fewer than two distinct
values; the explicit `ValueError` when `classes.shape[0] != 2`;
`np.c_[y_score, y_true]` requires equal flattened lengths; the sweep fills
`ts[idx] = tps` and `tfp[idx] = fps` over `sorted_signal` in descending-score
order; finally `tfp / n_samples`, `ts / n_pos`, and `thresholds[::-1]`. -/
def calc_froc (y_true y_score : List (List ℚ)) :
    Except NpError (List ℚ × List ℚ × List ℚ) :=
  let n_samples := y_true.length
  let classes := np_unique y_true.flatten
  match classes.get? 1 with
  | none => .error .indexError
  | some c1 =>
    let n_pos : ℚ := (countVal c1 y_true.flatten : ℕ)
    if classes.length ≠ 2 then .error .valueError
    else if y_score.flatten.length ≠ y_true.flatten.length then .error .shapeError
    else
      match sweep (sortedSignal y_true y_score) (sortedSignal y_true y_score) with
      | none => .error .assertError
      | some counts =>
        .ok (counts.map (fun c => (c.1 : ℚ) / n_pos),
             counts.map (fun c => (c.2 : ℚ) / (n_samples : ℚ)),
             (np_unique y_score.flatten).reverse)

/-- The confusion pair `(tps, fps)` that the sweep of `calc_froc` computes at
threshold `t`: `get_true_false` of the deduplicated true labels against the
deduplicated scores thresholded at `t`. -/
def pointAt (y_true y_score : List (List ℚ)) (t : ℚ) : Option (ℕ × ℕ) :=
  let sig := sortedSignal y_true y_score
  (get_true_false (sig.map Prod.snd) (t_est sig t)).map (fun c => (c.1, c.2.2.1))

/-- The `tps` count the sweep computes at threshold `t`. -/
def tpCount (sig : List (ℚ × ℚ)) (t : ℚ) : ℕ :=
  countPairs (fun a b => a + b = 2) ((sig.map Prod.snd).zip (t_est sig t))

/-- The `fps` count the sweep computes at threshold `t`. -/
def fpCount (sig : List (ℚ × ℚ)) (t : ℚ) : ℕ :=
  countPairs (fun a b => a - b = -1) ((sig.map Prod.snd).zip (t_est sig t))

theorem firstLabel_cases (ps : List (ℚ × ℚ)) (v : ℚ) :
    firstLabel ps v = 0 ∨ ∃ q ∈ ps, firstLabel ps v = q.2 := by
  induction ps with
  | nil => exact Or.inl rfl
  | cons q qs ih =>
    simp only [firstLabel]
    split
    · exact Or.inr ⟨q, by simp⟩
    · rcases ih with h | ⟨r, hr, hval⟩
      · exact Or.inl h
      · exact Or.inr ⟨r, by simp [hr], hval⟩

theorem isBinary_sortedSignal_snd (y_true y_score : List (List ℚ))
    (hb : IsBinary y_true.flatten) :
    IsBinary ((sortedSignal y_true y_score).map Prod.snd) := by
  intro x hx
  simp only [sortedSignal, List.map_reverse, List.mem_reverse, List.map_map,
    List.mem_map, Function.comp] at hx
  obtain ⟨v, _, hval⟩ := hx
  rcases firstLabel_cases (y_score.flatten.zip y_true.flatten) v with h | ⟨q, hq, hval'⟩
  · rw [← hval]
    exact Or.inl h
  · rw [← hval, hval']
    exact hb q.2 (List.of_mem_zip hq).2

theorem isBinary_t_est (sig : List (ℚ × ℚ)) (t : ℚ) : IsBinary (t_est sig t) := by
  intro x hx
  simp only [t_est, List.mem_map] at hx
  obtain ⟨q, _, hval⟩ := hx
  rw [← hval]
  split <;> simp

/-- When the deduplicated labels are binary, every `get_true_false` call of the
sweep succeeds (the assert never fires) and the sweep returns the `(tps, fps)`
counts. -/
theorem sweep_eq_map {sig : List (ℚ × ℚ)}
    (hb : IsBinary (sig.map Prod.snd)) (iter : List (ℚ × ℚ)) :
    sweep sig iter = some (iter.map (fun sv => (tpCount sig sv.1, fpCount sig sv.1))) := by
  induction iter with
  | nil => rfl
  | cons sv rest ih =>
    have hgtf := @get_true_false_eval (sig.map Prod.snd) (t_est sig sv.1)
      (by simp [t_est]) hb (isBinary_t_est sig sv.1)
    simp only [sweep, hgtf, ih, List.map_cons]
    rfl

theorem countVal_pos {α : Type} [DecidableEq α] {v : α} {l : List α} (h : v ∈ l) :
    0 < countVal v l := by
  induction l with
  | nil => exact absurd h (by simp)
  | cons x xs ih =>
    rcases List.mem_cons.mp h with h' | h'
    · simp [countVal, h'.symm]
    · simp only [countVal]
      have := ih h'
      omega

theorem length_flatten_pos {y_true : List (List ℚ)} (h : (1:ℚ) ∈ y_true.flatten) :
    0 < y_true.length := by
  rcases List.mem_flatten.mp h with ⟨row, hrow, _⟩
  exact List.length_pos.mpr (fun hnil => by simp [hnil] at hrow)

/-- Full evaluation of `calc_froc` on a binary 0/1 two-class input with
matching flattened shapes: no exception is raised, and the three returned
sequences are the sweep counts over the deduplicated signal divided by the
positive count resp. the row count, plus the reversed thresholds. -/
theorem calc_froc_eval {y_true y_score : List (List ℚ)}
    (hb : IsBinary y_true.flatten) (h0 : (0:ℚ) ∈ y_true.flatten)
    (h1 : (1:ℚ) ∈ y_true.flatten)
    (hlen : y_score.flatten.length = y_true.flatten.length) :
    calc_froc y_true y_score = .ok
      ((sortedSignal y_true y_score).map
         (fun sv => (tpCount (sortedSignal y_true y_score) sv.1 : ℚ) /
           (countVal (1:ℚ) y_true.flatten : ℕ)),
       (sortedSignal y_true y_score).map
         (fun sv => (fpCount (sortedSignal y_true y_score) sv.1 : ℚ) /
           (y_true.length : ℚ)),
       (np_unique y_score.flatten).reverse) := by
  have hcls := np_unique_binary hb h0 h1
  have hsweep := sweep_eq_map (isBinary_sortedSignal_snd y_true y_score hb)
    (sortedSignal y_true y_score)
  have hlen' : (List.map List.length y_score).sum = (List.map List.length y_true).sum := by
    simpa [List.length_flatten] using hlen
  simp only [calc_froc, hcls, hsweep, List.map_map]
  norm_num [hlen', Function.comp]

theorem tpCount_cons (q : ℚ × ℚ) (qs : List (ℚ × ℚ)) (s : ℚ) :
    tpCount (q :: qs) s =
      (if q.2 + (if s ≤ q.1 then (1:ℚ) else 0) = 2 then 1 else 0) + tpCount qs s := rfl

theorem fpCount_cons (q : ℚ × ℚ) (qs : List (ℚ × ℚ)) (s : ℚ) :
    fpCount (q :: qs) s =
      (if q.2 - (if s ≤ q.1 then (1:ℚ) else 0) = -1 then 1 else 0) + fpCount qs s := rfl

/-- Lowering the threshold can only grow the predicted-positive set, hence the
`tps` count. -/
theorem tpCount_anti {sig : List (ℚ × ℚ)} (hb : IsBinary (sig.map Prod.snd))
    {s s' : ℚ} (hss : s' ≤ s) : tpCount sig s ≤ tpCount sig s' := by
  induction sig with
  | nil => exact le_refl _
  | cons q qs ih =>
    have hq := hb q.2 (by simp)
    have htail := ih (fun x hx => hb x (by simp only [List.map_cons, List.mem_cons]; tauto))
    rw [tpCount_cons, tpCount_cons]
    by_cases hcase : s ≤ q.1
    · rw [if_pos hcase, if_pos (le_trans hss hcase)]
      exact Nat.add_le_add_left htail _
    · rw [if_neg hcase]
      have hfalse : ¬(q.2 + 0 = 2) := by
        rcases hq with h | h <;> rw [h] <;> norm_num
      rw [if_neg hfalse]
      omega

/-- Lowering the threshold can only grow the `fps` count. -/
theorem fpCount_anti {sig : List (ℚ × ℚ)} (hb : IsBinary (sig.map Prod.snd))
    {s s' : ℚ} (hss : s' ≤ s) : fpCount sig s ≤ fpCount sig s' := by
  induction sig with
  | nil => exact le_refl _
  | cons q qs ih =>
    have hq := hb q.2 (by simp)
    have htail := ih (fun x hx => hb x (by simp only [List.map_cons, List.mem_cons]; tauto))
    rw [fpCount_cons, fpCount_cons]
    by_cases hcase : s ≤ q.1
    · rw [if_pos hcase, if_pos (le_trans hss hcase)]
      exact Nat.add_le_add_left htail _
    · rw [if_neg hcase]
      have hfalse : ¬(q.2 - 0 = -1) := by
        rcases hq with h | h <;> rw [h] <;> norm_num
      rw [if_neg hfalse]
      omega

/-- The scores of the deduplicated signal are in descending order. -/
theorem sortedSignal_pairwise (y_true y_score : List (List ℚ)) :
    (sortedSignal y_true y_score).Pairwise (fun a b => b.1 ≤ a.1) := by
  unfold sortedSignal
  rw [List.pairwise_reverse, List.pairwise_map]
  exact sorted_np_unique (y_score.flatten)

/-- The scores of the deduplicated signal are exactly the reversed
thresholds. -/
theorem sortedSignal_fst (y_true y_score : List (List ℚ)) :
    (sortedSignal y_true y_score).map Prod.fst = (np_unique y_score.flatten).reverse := by
  unfold sortedSignal
  rw [List.map_reverse, List.map_map]
  have : (Prod.fst ∘ fun v : ℚ =>
      (v, firstLabel (y_score.flatten.zip y_true.flatten) v)) = fun v => v := rfl
  rw [this, List.map_id']

/-- Evaluation of the per-threshold point on binary labels. -/
theorem pointAt_eval {y_true y_score : List (List ℚ)} (hb : IsBinary y_true.flatten)
    (t : ℚ) :
    pointAt y_true y_score t = some
      (tpCount (sortedSignal y_true y_score) t, fpCount (sortedSignal y_true y_score) t) := by
  simp only [pointAt]
  rw [get_true_false_eval (by simp [t_est]) (isBinary_sortedSignal_snd y_true y_score hb)
    (isBinary_t_est _ t)]
  rfl

/-- Embedding of `calc_afroc(y_true, y_score)`: delegates to `calc_froc` and
maps the false-positive-per-sample axis through `fpf = 1 - np.e**(-tfp)`. -/
noncomputable def calc_afroc (y_true y_score : List (List ℚ)) :
    Except NpError (List ℚ × List ℝ × List ℚ) :=
  match calc_froc y_true y_score with
  | .error e => .error e
  | .ok (ts, tfp, th) => .ok (ts, tfp.map (fun x => 1 - Real.exp (-(x : ℝ))), th)

/-- The per-threshold FROC point as claim C1 words it (a spec-side refinement
definition, to be compared with `calc_froc`): the predicted-positive set is
every FLATTENED sample with score at least `t`, the confusion counts come from
`get_true_false` against the FULL flattened true labels, and the point is
`(tp / n_pos, fp / n_samples)` with `n_pos` the count of entries of the 2-D
`y_true` equal to the higher of its two distinct values and `n_samples` its
row count. -/
def claimC1Point (y_true y_score : List (List ℚ)) (t : ℚ) : Option (ℚ × ℚ) :=
  let pred := y_score.flatten.map (fun s => if t ≤ s then (1:ℚ) else 0)
  let pos := (np_unique y_true.flatten).getD 1 0
  (get_true_false y_true.flatten pred).map (fun c =>
    ((c.1 : ℚ) / (countVal pos y_true.flatten : ℕ), (c.2.2.1 : ℚ) / (y_true.length : ℚ)))

/-- The rows of the matrix `m` whose sample index belongs to `subject`:
`m[np.where(subjects == subject)[0]]`. -/
def selectRows (subjects : List String) (m : List (List ℚ)) (s : String) : List (List ℚ) :=
  ((subjects.zip m).filter (fun q => q.1 = s)).map Prod.snd

/-- Embedding of `emd_score_subj(y_true, y_pred, data_dir, subject)`.  The
external EMD routine (`simulation/emd.py`, outside the metrics module) and the
on-disk `<subject>_labels.npz` archive are parameters: `labels` models loading
the subject's label geometry from `data_dir` (`none` = missing file), and
`emd` models `emd_score(y_true, y_pred, labels_x)`. -/
def emd_score_subj {α : Type} (emd : List (List ℚ) → List (List ℚ) → α → ℚ)
    (labels : String → Option α) (y_true y_pred : List (List ℚ)) (subject : String) :
    Option ℚ :=
  (labels subject).map (fun L => emd y_true y_pred L)

/-- Embedding of `emd_score_subjects(subjects, y_true, y_pred, data_dir)`:
asserts the three inputs have one entry per sample and `y_true`/`y_pred` have
equal shapes, then for each distinct subject (in `np.unique` order) computes
the per-subject score on that subject's rows, weights it by
`len(sbj_idc) / len(subjects)`, and sums. -/
def emd_score_subjects {α : Type} (emd : List (List ℚ) → List (List ℚ) → α → ℚ)
    (labels : String → Option α) (subjects : List String)
    (y_true y_pred : List (List ℚ)) : Option ℚ :=
  if subjects.length = y_true.length ∧ subjects.length = y_pred.length
      ∧ y_true.map List.length = y_pred.map List.length then
    ((np_unique subjects).mapM (fun s =>
      (emd_score_subj emd labels (selectRows subjects y_true s)
          (selectRows subjects y_pred s) s).map
        (fun sc => sc * ((countVal s subjects : ℚ) / (subjects.length : ℚ))))).map
      (fun scores => scores.sum)
  else none

theorem countPairs_eq_zero {f : ℚ → ℚ → Prop} [∀ a b, Decidable (f a b)]
    {l : List (ℚ × ℚ)} (h : ∀ q ∈ l, ¬ f q.1 q.2) : countPairs f l = 0 := by
  induction l with
  | nil => rfl
  | cons q qs ih =>
    simp only [countPairs, if_neg (h q (by simp)), ih (fun r hr => h r (by simp [hr]))]

theorem countPairs_self_two (t : List ℚ) :
    countPairs (fun a b => a + b = 2) (t.zip t) = countVal 1 t := by
  induction t with
  | nil => rfl
  | cons x xs ih =>
    simp only [List.zip_cons_cons, countPairs, countVal, ih]
    congr 1
    by_cases h : x = 1
    · rw [if_pos (by rw [h]; norm_num), if_pos h]
    · rw [if_neg (fun hc => h (by linarith)), if_neg h]

theorem countPairs_self_zero (t : List ℚ) :
    countPairs (fun a b => a + b = 0) (t.zip t) = countVal 0 t := by
  induction t with
  | nil => rfl
  | cons x xs ih =>
    simp only [List.zip_cons_cons, countPairs, countVal, ih]
    congr 1
    by_cases h : x = 0
    · rw [if_pos (by rw [h]; norm_num), if_pos h]
    · rw [if_neg (fun hc => h (by linarith)), if_neg h]

theorem mem_zip_self {t : List ℚ} {q : ℚ × ℚ} (hq : q ∈ t.zip t) : q.1 = q.2 := by
  induction t with
  | nil => exact absurd hq (by simp)
  | cons x xs ih =>
    rw [List.zip_cons_cons, List.mem_cons] at hq
    rcases hq with hq | hq
    · rw [hq]
    · exact ih hq

theorem countPairs_self_diff (t : List ℚ) (c : ℚ) (hc : c ≠ 0) :
    countPairs (fun a b => a - b = c) (t.zip t) = 0 := by
  refine countPairs_eq_zero (fun q hq => fun habs => hc ?_)
  rw [mem_zip_self hq] at habs
  linarith

theorem countVal_all {α : Type} [DecidableEq α] {l : List α} {s : α}
    (h : ∀ x ∈ l, x = s) : countVal s l = l.length := by
  induction l with
  | nil => rfl
  | cons x xs ih =>
    simp only [countVal, List.length_cons, if_pos (h x (by simp)),
      ih (fun y hy => h y (by simp [hy]))]
    omega

theorem np_unique_const {α : Type} [LinearOrder α] {l : List α} {s : α}
    (hne : l ≠ []) (hall : ∀ x ∈ l, x = s) : np_unique l = [s] := by
  induction l with
  | nil => exact absurd rfl hne
  | cons x xs ih =>
    have hx : x = s := hall x (by simp)
    by_cases hxs : xs = []
    · subst hxs
      simp [np_unique, insertUnique, hx]
    · have hrec := ih hxs (fun y hy => hall y (by simp [hy]))
      simp [np_unique, hrec, insertUnique, hx]

theorem selectRows_all {subjects : List String} {m : List (List ℚ)} {s : String}
    (hlen : subjects.length = m.length) (hall : ∀ x ∈ subjects, x = s) :
    selectRows subjects m s = m := by
  unfold selectRows
  have hfilter : (subjects.zip m).filter (fun q => q.1 = s) = subjects.zip m := by
    rw [List.filter_eq_self]
    intro q hq
    have := hall q.1 (List.of_mem_zip hq).1
    simp [this]
  rw [hfilter]
  exact List.map_snd_zip subjects m (le_of_eq hlen.symm)

/-- Index-wise description of a successful `calc_froc` output on a binary
two-class input: position `i` of all three returned sequences belongs to the
same threshold `t`, and the point is `(tps / n_pos, fps / n_samples)` for the
sweep counts at `t`. -/
theorem froc_index_point {y_true y_score : List (List ℚ)} {ts tfp th : List ℚ}
    (hb : IsBinary y_true.flatten) (h0 : (0:ℚ) ∈ y_true.flatten)
    (h1 : (1:ℚ) ∈ y_true.flatten)
    (hlen : y_score.flatten.length = y_true.flatten.length)
    (hok : calc_froc y_true y_score = .ok (ts, tfp, th))
    (i : ℕ) (hi : i < th.length) :
    ∃ t tp fp, th[i]? = some t ∧ pointAt y_true y_score t = some (tp, fp) ∧
      ts[i]? = some ((tp : ℚ) / ((countVal (1:ℚ) y_true.flatten : ℕ) : ℚ)) ∧
      tfp[i]? = some ((fp : ℚ) / (y_true.length : ℚ)) := by
  have heval := calc_froc_eval hb h0 h1 hlen
  rw [hok] at heval
  simp only [Except.ok.injEq, Prod.mk.injEq] at heval
  obtain ⟨hts, htfp, hth⟩ := heval
  have hth' : th = (sortedSignal y_true y_score).map Prod.fst := by
    rw [hth, sortedSignal_fst]
  have hisig : i < (sortedSignal y_true y_score).length := by
    rw [hth', List.length_map] at hi
    exact hi
  obtain ⟨q, hq⟩ : ∃ q, (sortedSignal y_true y_score)[i]? = some q :=
    ⟨_, List.getElem?_eq_getElem hisig⟩
  refine ⟨q.1, tpCount (sortedSignal y_true y_score) q.1,
    fpCount (sortedSignal y_true y_score) q.1, ?_, pointAt_eval hb q.1, ?_, ?_⟩
  · rw [hth', List.getElem?_map, hq]
    rfl
  · rw [hts, List.getElem?_map, hq]
    rfl
  · rw [htfp, List.getElem?_map, hq]
    rfl

/-- Claim C2: for equal-length binary 0/1 sequences, `get_true_false` returns
exactly the counts of the positions with `true - pred = -1` (false positives),
`true - pred = 1` (true negatives), `true + pred = 2` (true positives) and
`true + pred = 0` (false negatives); an absent category yields the count 0
rather than an error. -/
theorem claim_C2 (t p : List ℚ) (hlen : t.length = p.length)
    (ht : IsBinary t) (hp : IsBinary p) :
    get_true_false t p = some
      (countPairs (fun a b => a + b = 2) (t.zip p),
       countPairs (fun a b => a - b = 1) (t.zip p),
       countPairs (fun a b => a - b = -1) (t.zip p),
       countPairs (fun a b => a + b = 0) (t.zip p)) ∧
    ((∀ q ∈ t.zip p, ¬(q.1 - q.2 = -1)) →
      countPairs (fun a b => a - b = -1) (t.zip p) = 0) :=
  ⟨get_true_false_eval hlen ht hp, fun h => countPairs_eq_zero h⟩

/-- Witness for C2 at `true = [1,0,1]`, `pred = [1,1,0]`. -/
theorem claim_C2_witness :
    get_true_false [(1:ℚ),0,1] [1,1,0] = some
      (countPairs (fun a b => a + b = 2) ([(1:ℚ),0,1].zip [1,1,0]),
       countPairs (fun a b => a - b = 1) ([(1:ℚ),0,1].zip [1,1,0]),
       countPairs (fun a b => a - b = -1) ([(1:ℚ),0,1].zip [1,1,0]),
       countPairs (fun a b => a + b = 0) ([(1:ℚ),0,1].zip [1,1,0])) ∧
    ((∀ q ∈ [(1:ℚ),0,1].zip [1,1,0], ¬(q.1 - q.2 = -1)) →
      countPairs (fun a b => a - b = -1) ([(1:ℚ),0,1].zip [1,1,0]) = 0) :=
  claim_C2 [1,0,1] [1,1,0] rfl (by norm_num [IsBinary]) (by norm_num [IsBinary])

/-- Claim C3: on equal-length binary sequences the four counts sum to the
common length and `get_true_false` succeeds; the identity is enforced inside
the function, which refuses to return (models the assert raising) whenever it
would be violated. -/
theorem claim_C3 (t p : List ℚ) (hlen : t.length = p.length)
    (ht : IsBinary t) (hp : IsBinary p) :
    (∃ tp tn fp fn, get_true_false t p = some (tp, tn, fp, fn) ∧
       tp + tn + fp + fn = t.length) ∧
    (∀ (u v : List ℚ) (tp tn fp fn : ℕ),
       get_true_false u v = some (tp, tn, fp, fn) → tp + tn + fp + fn = u.length) :=
  ⟨⟨_, _, _, _, get_true_false_eval hlen ht hp,
      get_true_false_sum (get_true_false_eval hlen ht hp)⟩,
   fun _ _ _ _ _ _ h => get_true_false_sum h⟩

/-- Witness for C3 at the empty pair of sequences. -/
theorem claim_C3_witness :
    ∃ tp tn fp fn, get_true_false ([] : List ℚ) ([] : List ℚ) = some (tp, tn, fp, fn) ∧
      tp + tn + fp + fn = ([] : List ℚ).length :=
  (claim_C3 [] [] rfl (by norm_num [IsBinary]) (by norm_num [IsBinary])).1

/-- Claim C5 counterexample: on `true = pred = [0]` the code returns
`(tp, tn, fp, fn) = (0, 0, 0, 1)` — the sole sample lands in the
`false_negative` bucket (`sum == 0`), not in `true_negative` as the claim
(`tn = count(true == 0)`, `fn = 0`) would require, so the claimed tuple
`(0, 1, 0, 0)` differs from the actual one. -/
theorem claim_C5_counterexample :
    get_true_false [(0:ℚ)] [(0:ℚ)] = some (0, 0, 0, 1) ∧
      ((0, 0, 0, 1) : ℕ × ℕ × ℕ × ℕ) ≠ (0, 1, 0, 0) := by
  constructor
  · norm_num [get_true_false, countPairs]
  · decide

/-- Claim C5 amended: for a binary sequence predicted perfectly
(`pred = true`), `get_true_false` returns `fp = 0`, `tp = count(true == 1)`,
but — by the `diff`/`sum` labeling convention — `tn = 0` and
`fn = count(true == 0)` (the claim had the last two swapped). -/
theorem claim_C5_amended (t : List ℚ) (ht : IsBinary t) :
    get_true_false t t = some (countVal 1 t, 0, 0, countVal 0 t) := by
  rw [get_true_false_eval rfl ht ht, countPairs_self_two, countPairs_self_zero,
    countPairs_self_diff t 1 (by norm_num), countPairs_self_diff t (-1) (by norm_num)]

/-- Witness for the amended C5 at `true = [0,1,1]`. -/
theorem claim_C5_amended_witness :
    get_true_false [(0:ℚ),1,1] [(0:ℚ),1,1] =
      some (countVal 1 [(0:ℚ),1,1], 0, 0, countVal 0 [(0:ℚ),1,1]) :=
  claim_C5_amended [0,1,1] (by norm_num [IsBinary])

/-- Claim C10: swapping the two arguments of `get_true_false` exchanges the
`true_negative` and `false_positive` counts and preserves `true_positive` and
`false_negative`. -/
theorem claim_C10 (t p : List ℚ) (hlen : t.length = p.length)
    (ht : IsBinary t) (hp : IsBinary p) (tp tn fp fn : ℕ)
    (h : get_true_false t p = some (tp, tn, fp, fn)) :
    get_true_false p t = some (tp, fp, tn, fn) := by
  rw [get_true_false_eval hlen ht hp] at h
  simp only [Option.some.injEq, Prod.mk.injEq] at h
  obtain ⟨h1, h2, h3, h4⟩ := h
  rw [get_true_false_eval hlen.symm hp ht]
  have hswap : p.zip t = (t.zip p).map Prod.swap := (List.zip_swap t p).symm
  rw [hswap, countPairs_map_swap, countPairs_map_swap, countPairs_map_swap,
    countPairs_map_swap]
  rw [@countPairs_congr (fun a b => b + a = 2) (fun a b => a + b = 2) _ _ _
      (fun q _ => by constructor <;> intro hq <;> linarith),
    @countPairs_congr (fun a b => b - a = 1) (fun a b => a - b = -1) _ _ _
      (fun q _ => by constructor <;> intro hq <;> linarith),
    @countPairs_congr (fun a b => b - a = -1) (fun a b => a - b = 1) _ _ _
      (fun q _ => by constructor <;> intro hq <;> linarith),
    @countPairs_congr (fun a b => b + a = 0) (fun a b => a + b = 0) _ _ _
      (fun q _ => by constructor <;> intro hq <;> linarith)]
  rw [h1, h2, h3, h4]

/-- Witness for C10 at `true = [1,0]`, `pred = [0,0]`. -/
theorem claim_C10_witness :
    get_true_false [(0:ℚ),0] [(1:ℚ),0] = some (0, 0, 1, 1) :=
  claim_C10 [1,0] [0,0] rfl (by norm_num [IsBinary]) (by norm_num [IsBinary])
    0 1 0 1 (by norm_num [get_true_false, countPairs])

/-- Claim C1 counterexample: on `y_true = [[1,0]]`, `y_score = [[2,2]]` (two
flattened samples sharing one score), the code returns the single point
`(ts, tfp) = (1, 0)`, while the claimed formula — `get_true_false` against the
FULL flattened labels with every flattened sample of score ≥ t predicted
positive — gives `(1, 1)` at the sole threshold `t = 2`: the sweep counts only
one representative per distinct score, so the flattened false positive at the
duplicated score is not counted. -/
theorem claim_C1_counterexample :
    calc_froc [[(1:ℚ),0]] [[(2:ℚ),2]] = Except.ok ([1], [0], [2]) ∧
    claimC1Point [[(1:ℚ),0]] [[(2:ℚ),2]] 2 = some (1, 1) ∧ ¬ ((0:ℚ) = 1) := by
  refine ⟨?_, ?_, by norm_num⟩
  · norm_num [calc_froc, np_unique, insertUnique, sortedSignal, firstLabel, sweep, t_est,
      get_true_false, countPairs, countVal]
  · norm_num [claimC1Point, np_unique, insertUnique, get_true_false, countPairs, countVal]

/-- Claim C1 amended: at each swept threshold the predicted-positive set and
the confusion counts are computed over the DEDUPLICATED signal (one
representative flattened sample per distinct score — the first occurrence),
not over the full flattened sequences; the returned point at index `i` is
`(tps / n_pos, fps / n_samples)` with `n_pos` the count of entries of the
original 2-D `y_true` equal to the higher class value and `n_samples` its row
count. -/
theorem claim_C1_amended {y_true y_score : List (List ℚ)} {ts tfp th : List ℚ}
    (hb : IsBinary y_true.flatten) (h0 : (0:ℚ) ∈ y_true.flatten)
    (h1 : (1:ℚ) ∈ y_true.flatten)
    (hlen : y_score.flatten.length = y_true.flatten.length)
    (hok : calc_froc y_true y_score = .ok (ts, tfp, th))
    (i : ℕ) (hi : i < th.length) :
    ∃ t tp fp, th[i]? = some t ∧ pointAt y_true y_score t = some (tp, fp) ∧
      ts[i]? = some ((tp : ℚ) / ((countVal (1:ℚ) y_true.flatten : ℕ) : ℚ)) ∧
      tfp[i]? = some ((fp : ℚ) / (y_true.length : ℚ)) :=
  froc_index_point hb h0 h1 hlen hok i hi

/-- Witness for the amended C1 at `y_true = [[0,1]]`, `y_score = [[1,3]]`,
index 0. -/
theorem claim_C1_amended_witness :
    ∃ t tp fp, (([3,1] : List ℚ))[0]? = some t ∧
      pointAt [[(0:ℚ),1]] [[(1:ℚ),3]] t = some (tp, fp) ∧
      (([1,1] : List ℚ))[0]? =
        some ((tp : ℚ) / ((countVal (1:ℚ) ([[(0:ℚ),1]] : List (List ℚ)).flatten : ℕ) : ℚ)) ∧
      (([0,1] : List ℚ))[0]? =
        some ((fp : ℚ) / ((([[(0:ℚ),1]] : List (List ℚ)).length : ℕ) : ℚ)) :=
  claim_C1_amended (by norm_num [IsBinary]) (by norm_num) (by norm_num) (by norm_num)
    (by norm_num [calc_froc, np_unique, insertUnique, sortedSignal, firstLabel, sweep,
      t_est, get_true_false, countPairs, countVal])
    0 (by norm_num)

/-- Claim C4 counterexample: on `y_true = [[0,1]]`, `y_score = [[1,3]]` the
returned threshold sequence is `[3, 1]` — descending, not ascending as
claimed. -/
theorem claim_C4_counterexample :
    calc_froc [[(0:ℚ),1]] [[(1:ℚ),3]] = Except.ok ([1,1], [0,1], [3,1]) ∧
    ¬ List.Sorted (· ≤ ·) ([3,1] : List ℚ) := by
  constructor
  · norm_num [calc_froc, np_unique, insertUnique, sortedSignal, firstLabel, sweep, t_est,
      get_true_false, countPairs, countVal]
  · norm_num [List.sorted_cons]

/-- Claim C4 amended: the returned thresholds are every distinct value of the
flattened scores, with no duplicates, returned in DESCENDING order (the
ascending `np.unique` output reversed to match the sweep order), and index `i`
of all three returned sequences corresponds to the same threshold. -/
theorem claim_C4_amended {y_true y_score : List (List ℚ)} {ts tfp th : List ℚ}
    (hb : IsBinary y_true.flatten) (h0 : (0:ℚ) ∈ y_true.flatten)
    (h1 : (1:ℚ) ∈ y_true.flatten)
    (hlen : y_score.flatten.length = y_true.flatten.length)
    (hok : calc_froc y_true y_score = .ok (ts, tfp, th)) :
    th = (np_unique y_score.flatten).reverse ∧
    th.Nodup ∧
    List.Sorted (fun a b => b ≤ a) th ∧
    (∀ v, v ∈ th ↔ v ∈ y_score.flatten) ∧
    ts.length = th.length ∧ tfp.length = th.length ∧
    (∀ i, i < th.length → ∃ t tp fp, th[i]? = some t ∧
      pointAt y_true y_score t = some (tp, fp) ∧
      ts[i]? = some ((tp : ℚ) / ((countVal (1:ℚ) y_true.flatten : ℕ) : ℚ)) ∧
      tfp[i]? = some ((fp : ℚ) / (y_true.length : ℚ))) := by
  have heval := calc_froc_eval hb h0 h1 hlen
  rw [hok] at heval
  simp only [Except.ok.injEq, Prod.mk.injEq] at heval
  obtain ⟨hts, htfp, hth⟩ := heval
  refine ⟨hth, ?_, ?_, ?_, ?_, ?_, fun i hi => froc_index_point hb h0 h1 hlen hok i hi⟩
  · rw [hth, List.nodup_reverse]
    exact nodup_np_unique _
  · rw [hth]
    exact (List.pairwise_reverse).mpr (sorted_np_unique _)
  · intro v
    rw [hth, List.mem_reverse, mem_np_unique]
  · rw [hts, hth, List.length_map, sortedSignal, List.length_reverse, List.length_map,
      List.length_reverse]
  · rw [htfp, hth, List.length_map, sortedSignal, List.length_reverse, List.length_map,
      List.length_reverse]

/-- Witness for the amended C4 at `y_true = [[0,1]]`, `y_score = [[1,3]]`. -/
theorem claim_C4_amended_witness :
    ([3,1] : List ℚ) = (np_unique ([[(1:ℚ),3]] : List (List ℚ)).flatten).reverse ∧
    ([3,1] : List ℚ).Nodup ∧
    List.Sorted (fun a b => b ≤ a) ([3,1] : List ℚ) ∧
    (∀ v, v ∈ ([3,1] : List ℚ) ↔ v ∈ ([[(1:ℚ),3]] : List (List ℚ)).flatten) ∧
    ([1,1] : List ℚ).length = ([3,1] : List ℚ).length ∧
    ([0,1] : List ℚ).length = ([3,1] : List ℚ).length ∧
    (∀ i, i < ([3,1] : List ℚ).length → ∃ t tp fp,
      (([3,1] : List ℚ))[i]? = some t ∧
      pointAt [[(0:ℚ),1]] [[(1:ℚ),3]] t = some (tp, fp) ∧
      (([1,1] : List ℚ))[i]? =
        some ((tp : ℚ) / ((countVal (1:ℚ) ([[(0:ℚ),1]] : List (List ℚ)).flatten : ℕ) : ℚ)) ∧
      (([0,1] : List ℚ))[i]? =
        some ((fp : ℚ) / ((([[(0:ℚ),1]] : List (List ℚ)).length : ℕ) : ℚ))) :=
  claim_C4_amended (by norm_num [IsBinary]) (by norm_num) (by norm_num) (by norm_num)
    (by norm_num [calc_froc, np_unique, insertUnique, sortedSignal, firstLabel, sweep,
      t_est, get_true_false, countPairs, countVal])

/-- Claim C6 counterexample: with a single distinct true-label value the code
fails from the out-of-bounds access `classes[1]` (an `IndexError`), BEFORE it
reaches the binary-classification `ValueError` check — so the failure is not
the validation error the claim names. -/
theorem claim_C6_counterexample :
    calc_froc [[(0:ℚ)]] [[(0:ℚ)]] = Except.error NpError.indexError ∧
    NpError.indexError ≠ NpError.valueError := by
  constructor
  · norm_num [calc_froc, np_unique, insertUnique]
  · decide

/-- Claim C6 amended: `calc_froc` (and `calc_afroc`, which delegates to it)
fails whenever the true-label matrix does not contain exactly two distinct
values — hence succeeds only on two-class input — but the exception differs:
fewer than two distinct values raise `IndexError` from `classes[1]` (reached
before the check), and only three or more raise the validation
`ValueError`. -/
theorem claim_C6_amended (y_true y_score : List (List ℚ))
    (h : (np_unique y_true.flatten).length ≠ 2) :
    ∃ e, calc_froc y_true y_score = .error e ∧
      calc_afroc y_true y_score = .error e ∧
      ((np_unique y_true.flatten).length < 2 → e = NpError.indexError) ∧
      (2 < (np_unique y_true.flatten).length → e = NpError.valueError) := by
  rcases hget : (np_unique y_true.flatten).get? 1 with _ | c1
  · have hle : (np_unique y_true.flatten).length ≤ 1 := List.get?_eq_none.mp hget
    have hfroc : calc_froc y_true y_score = .error .indexError := by
      simp only [calc_froc, hget]
    exact ⟨_, hfroc, by simp [calc_afroc, hfroc], fun _ => rfl,
      fun hgt => absurd hgt (by omega)⟩
  · have hlt : 1 < (np_unique y_true.flatten).length := by
      by_contra h'
      rw [List.get?_eq_none.mpr (by omega)] at hget
      exact Option.noConfusion hget
    have hfroc : calc_froc y_true y_score = .error .valueError := by
      simp only [calc_froc, hget]
      rw [if_pos h]
    exact ⟨_, hfroc, by simp [calc_afroc, hfroc],
      fun hlt2 => absurd hlt2 (by omega), fun _ => rfl⟩

/-- Witness for the amended C6 at the one-class input `y_true = [[0]]`. -/
theorem claim_C6_amended_witness :
    ∃ e, calc_froc [[(0:ℚ)]] [[(0:ℚ)]] = .error e ∧
      calc_afroc [[(0:ℚ)]] [[(0:ℚ)]] = .error e ∧
      ((np_unique ([[(0:ℚ)]] : List (List ℚ)).flatten).length < 2 →
        e = NpError.indexError) ∧
      (2 < (np_unique ([[(0:ℚ)]] : List (List ℚ)).flatten).length →
        e = NpError.valueError) :=
  claim_C6_amended [[0]] [[0]] (by norm_num [np_unique, insertUnique])

/-- Claim C7: the sensitivity and false-positive-per-sample sequences of a
successful `calc_froc` run on binary two-class input are each monotonically
non-decreasing along the returned index order (which is the descending-
threshold sweep order). -/
theorem claim_C7 {y_true y_score : List (List ℚ)} {ts tfp th : List ℚ}
    (hb : IsBinary y_true.flatten) (h0 : (0:ℚ) ∈ y_true.flatten)
    (h1 : (1:ℚ) ∈ y_true.flatten)
    (hlen : y_score.flatten.length = y_true.flatten.length)
    (hok : calc_froc y_true y_score = .ok (ts, tfp, th)) :
    List.Sorted (· ≤ ·) ts ∧ List.Sorted (· ≤ ·) tfp := by
  have heval := calc_froc_eval hb h0 h1 hlen
  rw [hok] at heval
  simp only [Except.ok.injEq, Prod.mk.injEq] at heval
  obtain ⟨hts, htfp, hth⟩ := heval
  have hsig := sortedSignal_pairwise y_true y_score
  have hbsig := isBinary_sortedSignal_snd y_true y_score hb
  have hnpos : (0:ℚ) < ((countVal (1:ℚ) y_true.flatten : ℕ) : ℚ) := by
    exact_mod_cast countVal_pos h1
  have hns : (0:ℚ) < (y_true.length : ℚ) := by
    exact_mod_cast length_flatten_pos h1
  constructor
  · rw [hts]
    refine List.Pairwise.map _ (fun a b hab => ?_) hsig
    have hcount := tpCount_anti hbsig hab
    exact (div_le_div_iff_of_pos_right hnpos).mpr (by exact_mod_cast hcount)
  · rw [htfp]
    refine List.Pairwise.map _ (fun a b hab => ?_) hsig
    have hcount := fpCount_anti hbsig hab
    exact (div_le_div_iff_of_pos_right hns).mpr (by exact_mod_cast hcount)

/-- Witness for C7 at `y_true = [[0,1]]`, `y_score = [[1,3]]`. -/
theorem claim_C7_witness :
    List.Sorted (· ≤ ·) ([1,1] : List ℚ) ∧ List.Sorted (· ≤ ·) ([0,1] : List ℚ) :=
  @claim_C7 [[0,1]] [[1,3]] [1,1] [0,1] [3,1] (by norm_num [IsBinary]) (by norm_num) (by norm_num) (by norm_num)
    (by norm_num [calc_froc, np_unique, insertUnique, sortedSignal, firstLabel, sweep,
      t_est, get_true_false, countPairs, countVal])

/-- Claim C8: `calc_afroc` returns the sensitivities and thresholds of
`calc_froc` unchanged and maps each false-positive-per-sample value `x`
through `1 - exp(-x)`; for non-negative `x` the transformed value lies in
`[0, 1)`. -/
theorem claim_C8 (y_true y_score : List (List ℚ)) (ts tfp th : List ℚ)
    (hok : calc_froc y_true y_score = .ok (ts, tfp, th)) :
    calc_afroc y_true y_score =
      .ok (ts, tfp.map (fun x => 1 - Real.exp (-(x : ℝ))), th) ∧
    ∀ x : ℚ, 0 ≤ x →
      (0:ℝ) ≤ 1 - Real.exp (-(x : ℝ)) ∧ 1 - Real.exp (-(x : ℝ)) < 1 := by
  refine ⟨by simp [calc_afroc, hok], fun x hx => ⟨?_, ?_⟩⟩
  · have hexp : Real.exp (-(x : ℝ)) ≤ 1 := by
      rw [Real.exp_le_one_iff]
      have : (0:ℝ) ≤ (x : ℝ) := by exact_mod_cast hx
      linarith
    linarith
  · have hexp := Real.exp_pos (-(x : ℝ))
    linarith

/-- Witness for C8 at `y_true = [[0,1]]`, `y_score = [[1,3]]`, value `x = 1`. -/
theorem claim_C8_witness :
    calc_afroc [[(0:ℚ),1]] [[(1:ℚ),3]] =
      .ok ([1,1], ([0,1] : List ℚ).map (fun x => 1 - Real.exp (-(x : ℝ))), [3,1]) ∧
    ((0:ℝ) ≤ 1 - Real.exp (-((1:ℚ) : ℝ)) ∧ 1 - Real.exp (-((1:ℚ) : ℝ)) < 1) := by
  have hok : calc_froc [[(0:ℚ),1]] [[(1:ℚ),3]] = .ok ([1,1], [0,1], [3,1]) := by
    norm_num [calc_froc, np_unique, insertUnique, sortedSignal, firstLabel, sweep,
      t_est, get_true_false, countPairs, countVal]
  exact ⟨(claim_C8 [[0,1]] [[1,3]] [1,1] [0,1] [3,1] hok).1,
    (claim_C8 [[0,1]] [[1,3]] [1,1] [0,1] [3,1] hok).2 1 (by norm_num)⟩

/-- Claim C9: `emd_score_subjects` is the sample-count-weighted sum of the
per-subject EMD scores — each distinct subject's score weighted by
(its row count / total rows) — and with a single subject it coincides with
`emd_score_subj` on the whole data. -/
theorem claim_C9 {α : Type} (emd : List (List ℚ) → List (List ℚ) → α → ℚ)
    (labels : String → Option α) (subjects : List String)
    (y_true y_pred : List (List ℚ))
    (h1 : subjects.length = y_true.length) (h2 : subjects.length = y_pred.length)
    (h3 : y_true.map List.length = y_pred.map List.length) :
    (emd_score_subjects emd labels subjects y_true y_pred =
      ((np_unique subjects).mapM (fun s =>
        (emd_score_subj emd labels (selectRows subjects y_true s)
            (selectRows subjects y_pred s) s).map
          (fun sc => sc * ((countVal s subjects : ℚ) / (subjects.length : ℚ))))).map
        (fun scores => scores.sum)) ∧
    (∀ s : String, subjects ≠ [] → (∀ x ∈ subjects, x = s) →
      emd_score_subjects emd labels subjects y_true y_pred =
        emd_score_subj emd labels y_true y_pred s) := by
  have hw : emd_score_subjects emd labels subjects y_true y_pred =
      ((np_unique subjects).mapM (fun s =>
        (emd_score_subj emd labels (selectRows subjects y_true s)
            (selectRows subjects y_pred s) s).map
          (fun sc => sc * ((countVal s subjects : ℚ) / (subjects.length : ℚ))))).map
        (fun scores => scores.sum) := by
    unfold emd_score_subjects
    rw [if_pos ⟨h1, h2, h3⟩]
  refine ⟨hw, fun s hne hall => ?_⟩
  rw [hw, np_unique_const hne hall]
  have hlenpos : (subjects.length : ℚ) ≠ 0 := by
    have : subjects.length ≠ 0 := fun h => hne (List.length_eq_zero.mp h)
    exact_mod_cast this
  cases hl : labels s with
  | none =>
    simp [emd_score_subj, hl, List.mapM, List.mapM.loop]
  | some L =>
    simp [emd_score_subj, hl, List.mapM, List.mapM.loop, selectRows_all h1 hall,
      selectRows_all h2 hall, countVal_all hall, div_self hlenpos]

/-- Witness for C9: a single subject with two samples, a constant external EMD
routine and an always-present label archive. -/
theorem claim_C9_witness :
    emd_score_subjects (fun _ _ _ => (7:ℚ)) (fun _ => some 0) ["a","a"]
      [[1],[0]] [[1],[1]] =
    emd_score_subj (fun _ _ _ => (7:ℚ)) (fun _ => some 0) [[1],[0]] [[1],[1]] "a" :=
  (claim_C9 (fun _ _ _ => (7:ℚ)) (fun _ => some (0 : ℕ)) ["a","a"]
      [[1],[0]] [[1],[1]] rfl rfl rfl).2 "a" (by simp) (by simp)

end Metrics
